import Mathlib

/-!
Verification of the SU2 linear-algebra core against its specification.

The definitions below are shallow embeddings of:
* `Common/src/toolboxes/CLinearPartitioner.cpp` (linear domain partitioner),
* `Common/include/linear_algebra/CSysMatrix.inl` (block-sparse matrix kernels).

Machine integers (`unsigned long`) are modelled as `Nat` with explicit
reduction modulo `2^64` at the places where the C++ arithmetic can wrap
(the `firstIndex`/`lastIndex` recurrences subtract `adjust`).  Scalar
matrix entries are modelled as `ℚ` (the C++ code is templated over the
scalar type; the claims under study are exact-arithmetic identities).
-/

namespace SU2

/-! ### CLinearPartitioner -/

/-- `sizeOnRank[r]` as computed by the constructor: `quotient + int(ii < remainder)`
where `quotient = val_global_count/size` is only assigned when
`val_global_count >= size` (otherwise it stays `0`) and
`remainder = val_global_count % size`. -/
def sizeOnRank (gc sz r : Nat) : Nat :=
  (if sz ≤ gc then gc / sz else 0) + (if r < gc % sz then 1 else 0)

/-- The cumulative-sum recurrence filling `cumulativeSizeBeforeRank[0..size-1]`:
`cum[0] = 0`, `cum[p] = cum[p-1] + sizeOnRank[p-1]`. -/
def csbrAux (gc sz : Nat) : Nat → Nat
  | 0 => 0
  | r + 1 => csbrAux gc sz r + sizeOnRank gc sz r

/-- `cumulativeSizeBeforeRank[r]`: the recurrence values for `r < size`, and the
directly assigned `cumulativeSizeBeforeRank[size] = val_global_count`. -/
def cumulativeSizeBeforeRank (gc sz r : Nat) : Nat :=
  if r = sz then gc else csbrAux gc sz r

/-- The upward walk of `GetRankContainingIndex`:
`while (val_index >= cumulativeSizeBeforeRank[iProcessor+1]) iProcessor++`.
The loop is embedded with explicit fuel; fuel `size` is enough from any
starting processor below `size`. -/
def walkUp (gc sz idx : Nat) : Nat → Nat → Nat
  | 0, p => p
  | f + 1, p =>
    if cumulativeSizeBeforeRank gc sz (p + 1) ≤ idx then
      walkUp gc sz idx f (p + 1)
    else p

/-- The downward walk of `GetRankContainingIndex`:
`while (val_index < cumulativeSizeBeforeRank[iProcessor]) iProcessor--`.
At `p = 0` the guard compares against `cumulativeSizeBeforeRank[0] = 0`
and is always false, so the loop never decrements past `0`. -/
def walkDown (gc sz idx : Nat) : Nat → Nat
  | 0 => 0
  | p + 1 =>
    if idx < cumulativeSizeBeforeRank gc sz (p + 1) then
      walkDown gc sz idx p
    else p + 1

/-- The initial guess of `GetRankContainingIndex`: `val_index / sizeOnRank[0]`,
clamped to `size - 1` when it reaches `size`. -/
def clampedGuess (gc sz idx : Nat) : Nat :=
  if sz ≤ idx / sizeOnRank gc sz 0 then sz - 1 else idx / sizeOnRank gc sz 0

/-- `CLinearPartitioner::GetRankContainingIndex`: initial guess
`val_index / sizeOnRank[0]`, clamped to `size - 1`, then the up/down walk. -/
def GetRankContainingIndex (gc sz idx : Nat) : Nat :=
  if cumulativeSizeBeforeRank gc sz (clampedGuess gc sz idx) ≤ idx then
    walkUp gc sz idx sz (clampedGuess gc sz idx)
  else
    walkDown gc sz idx (clampedGuess gc sz idx)

/-- Width of the C++ `unsigned long` type (64 bits). -/
def ulongMod : Nat := 18446744073709551616

/-- `unsigned long` addition. -/
def uadd (a b : Nat) : Nat := (a + b) % ulongMod

/-- `unsigned long` subtraction (wrapping; `b ≤ ulongMod` in all uses). -/
def usub (a b : Nat) : Nat := (a + ulongMod - b) % ulongMod

/-- The `firstIndex`/`lastIndex` recurrence of the constructor, with
`adjust = 1` when `isDisjoint` and `0` otherwise:
`firstIndex[0] = val_offset`, `lastIndex[p] = firstIndex[p] + sizeOnRank[p] - adjust`,
`firstIndex[p+1] = lastIndex[p] + adjust`. -/
def firstLast (gc sz off : Nat) (isDisjoint : Bool) : Nat → Nat × Nat
  | 0 =>
    let f := off % ulongMod
    (f, usub (uadd f (sizeOnRank gc sz 0)) (if isDisjoint then 1 else 0))
  | r + 1 =>
    let f := uadd (firstLast gc sz off isDisjoint r).2 (if isDisjoint then 1 else 0)
    (f, usub (uadd f (sizeOnRank gc sz (r + 1))) (if isDisjoint then 1 else 0))

/-- `firstIndex[r]`. -/
def firstIndex (gc sz off : Nat) (isDisjoint : Bool) (r : Nat) : Nat :=
  (firstLast gc sz off isDisjoint r).1

/-- `lastIndex[r]`. -/
def lastIndex (gc sz off : Nat) (isDisjoint : Bool) (r : Nat) : Nat :=
  (firstLast gc sz off isDisjoint r).2

/-! ### CSysMatrix: ILU block access -/

/-- The ILU sparsity pattern of `CSysMatrix`: CSR-style row offsets
(`row_ptr_ilu`), per-entry block-column indices (`col_ind_ilu`), and the
uniform block dimensions `nVar × nEqn`. -/
structure SparsityILU where
  row_ptr_ilu : List Nat
  col_ind_ilu : List Nat
  nVar : Nat
  nEqn : Nat

/-- The linear scan shared by `GetBlock_ILUMatrix` and `SetBlock_ILUMatrix`:
the first storage index in row `block_i`'s span of `col_ind_ilu` whose column
equals `block_j` (the loops return/break at the first match). -/
def findIndexILU (S : SparsityILU) (block_i block_j : Nat) : Option Nat :=
  (List.range' (S.row_ptr_ilu.getD block_i 0)
    (S.row_ptr_ilu.getD (block_i + 1) 0 - S.row_ptr_ilu.getD block_i 0)).find?
    (fun ix => S.col_ind_ilu.getD ix 0 == block_j)

/-- Whether the block pair `(block_i, block_j)` is declared in the ILU
sparsity pattern, i.e. `block_j` appears in `col_ind_ilu` within row
`block_i`'s span. -/
def declaredILU (S : SparsityILU) (block_i block_j : Nat) : Bool :=
  (List.range' (S.row_ptr_ilu.getD block_i 0)
    (S.row_ptr_ilu.getD (block_i + 1) 0 - S.row_ptr_ilu.getD block_i 0)).any
    (fun ix => S.col_ind_ilu.getD ix 0 == block_j)

/-- `CSysMatrix::GetBlock_ILUMatrix`: scan row `block_i`'s span; on a match
return (a view of) the block at `&ILU_matrix[index*nVar*nEqn]`, else `NULL`. -/
def GetBlock_ILUMatrix (S : SparsityILU) (mat : Nat → ℚ) (block_i block_j : Nat) :
    Option (Nat → ℚ) :=
  match findIndexILU S block_i block_j with
  | some ix => some (fun k => mat (ix * (S.nVar * S.nEqn) + k))
  | none => none

/-- `CSysMatrix::SetBlock_ILUMatrix`: scan row `block_i`'s span; on a match
overwrite the `nVar*nEqn` entries at `ILU_matrix[index*nVar*nEqn + iVar]`
with `val_block` and break, else leave the array unchanged. -/
def SetBlock_ILUMatrix (S : SparsityILU) (mat : Nat → ℚ) (block_i block_j : Nat)
    (val_block : Nat → ℚ) : Nat → ℚ :=
  match findIndexILU S block_i block_j with
  | some ix => fun k =>
      if ix * (S.nVar * S.nEqn) ≤ k ∧ k < ix * (S.nVar * S.nEqn) + S.nVar * S.nEqn
      then val_block (k - ix * (S.nVar * S.nEqn))
      else mat k
  | none => mat

/-! ### Dense block kernels (`gemv_impl`) -/

/-- One inner-loop step of `gemv_impl`:
`if (alpha) c[transp? j:i] += a[i*n+j]*b[transp? i:j]; else c[...] -= ...`. -/
def gemvInnerStep (alpha transp : Bool) (n : Nat) (a b : Nat → ℚ) (i : Nat)
    (c : Nat → ℚ) (j : Nat) : Nat → ℚ :=
  Function.update c (if transp then j else i)
    (c (if transp then j else i) +
      (if alpha then 1 else -1) * (a (i * n + j) * b (if transp then i else j)))

/-- `gemv_impl<T,alpha,beta,transp>`: the traditional row-dot-vector GEMV with
the constants as compile-time booleans; `!beta` zeroes `c[i]` before row `i`'s
inner loop. -/
def gemv_impl (alpha beta transp : Bool) (n : Nat) (a b c : Nat → ℚ) : Nat → ℚ :=
  (List.range n).foldl
    (fun acc i =>
      (List.range n).foldl (gemvInnerStep alpha transp n a b i)
        (if beta then acc else Function.update acc i 0))
    c

/-- `CSysMatrix::MatrixVectorProduct` (non-MKL path):
`gemv_impl<ScalarType,true,false,false>`. -/
def MatrixVectorProduct (n : Nat) (matrix vector product : Nat → ℚ) : Nat → ℚ :=
  gemv_impl true false false n matrix vector product

/-- `CSysMatrix::MatrixVectorProductAdd` (non-MKL path):
`gemv_impl<ScalarType,true,true,false>`. -/
def MatrixVectorProductAdd (n : Nat) (matrix vector product : Nat → ℚ) : Nat → ℚ :=
  gemv_impl true true false n matrix vector product

/-- `CSysMatrix::MatrixVectorProductTransp` (non-MKL path):
`gemv_impl<ScalarType,true,true,true>`. -/
def MatrixVectorProductTransp (n : Nat) (matrix vector product : Nat → ℚ) : Nat → ℚ :=
  gemv_impl true true true n matrix vector product

/-! ### CSysMatrix: partial row products -/

/-- The pieces of `CSysMatrix` needed by `Upper/Lower/DiagonalProduct`:
CSR block structure (`row_ptr`, `col_ind`, `dia_ptr`), the uniform block
size `nVar`, and the flat value array `matrix`. -/
structure CSRMatrix where
  row_ptr : List Nat
  col_ind : List Nat
  dia_ptr : List Nat
  nVar : Nat
  matrix : Nat → ℚ

/-- The initialization loop `for (iVar = 0; iVar < nVar; iVar++)
prod_row_vector[iVar] = 0.0` applied to the member buffer. -/
def zeroFirst (n : Nat) (v : Nat → ℚ) : Nat → ℚ :=
  fun k => if k < n then 0 else v k

/-- `CSysMatrix::UpperProduct`: zero the row buffer, then accumulate
`MatrixVectorProductAdd` over the storage indices strictly after the
diagonal entry, i.e. `index` in `[dia_ptr[row_i]+1, row_ptr[row_i+1])`. -/
def UpperProduct (M : CSRMatrix) (vec : Nat → ℚ) (row_i : Nat) (prv : Nat → ℚ) :
    Nat → ℚ :=
  (List.range' (M.dia_ptr.getD row_i 0 + 1)
      (M.row_ptr.getD (row_i + 1) 0 - (M.dia_ptr.getD row_i 0 + 1))).foldl
    (fun acc index =>
      MatrixVectorProductAdd M.nVar
        (fun k => M.matrix (index * (M.nVar * M.nVar) + k))
        (fun k => vec (M.col_ind.getD index 0 * M.nVar + k)) acc)
    (zeroFirst M.nVar prv)

/-- `CSysMatrix::LowerProduct`: zero the row buffer, then accumulate
`MatrixVectorProductAdd` over the storage indices strictly before the
diagonal entry, i.e. `index` in `[row_ptr[row_i], dia_ptr[row_i])`. -/
def LowerProduct (M : CSRMatrix) (vec : Nat → ℚ) (row_i : Nat) (prv : Nat → ℚ) :
    Nat → ℚ :=
  (List.range' (M.row_ptr.getD row_i 0)
      (M.dia_ptr.getD row_i 0 - M.row_ptr.getD row_i 0)).foldl
    (fun acc index =>
      MatrixVectorProductAdd M.nVar
        (fun k => M.matrix (index * (M.nVar * M.nVar) + k))
        (fun k => vec (M.col_ind.getD index 0 * M.nVar + k)) acc)
    (zeroFirst M.nVar prv)

/-- `CSysMatrix::DiagonalProduct`: the plain `MatrixVectorProduct` of the
diagonal block `&matrix[dia_ptr[row_i]*nVar*nVar]` with `&vec[row_i*nVar]`. -/
def DiagonalProduct (M : CSRMatrix) (vec : Nat → ℚ) (row_i : Nat) (prv : Nat → ℚ) :
    Nat → ℚ :=
  MatrixVectorProduct M.nVar
    (fun k => M.matrix (M.dia_ptr.getD row_i 0 * (M.nVar * M.nVar) + k))
    (fun k => vec (row_i * M.nVar + k)) prv

/-- The specification-side partial row product: component `k` of the sum of
`A_ij * x_j` over the stored entries of row `row_i` whose block column
satisfies `p` (the spec restricts by column comparison, not by storage
position). -/
def rowProductFiltered (M : CSRMatrix) (vec : Nat → ℚ) (row_i : Nat)
    (p : Nat → Prop) [DecidablePred p] (k : Nat) : ℚ :=
  ∑ index ∈ (Finset.Ico (M.row_ptr.getD row_i 0) (M.row_ptr.getD (row_i + 1) 0)).filter
      (fun index => p (M.col_ind.getD index 0)),
    ∑ j ∈ Finset.range M.nVar,
      M.matrix (index * (M.nVar * M.nVar) + k * M.nVar + j) *
        vec (M.col_ind.getD index 0 * M.nVar + j)

/-- A concrete 2-row block-sparse matrix (`nVar = 1`, full 2×2 pattern,
values `index + 1`) used to instantiate the partial-row-product theorem. -/
def exampleCSR : CSRMatrix :=
  ⟨[0, 2, 4], [0, 1, 0, 1], [0, 3], 1, fun ix => (ix : ℚ) + 1⟩

/-! ### CSysMatrix: diagonal block inversion and Gauss elimination -/

/-- Modelled from the spec: `CSysMatrix::MatrixInverse` is called by
`InverseDiagonalBlock` but its implementation file is not among the sources;
per the spec the routine "computes and returns the explicit inverse of a
diagonal block". -/
def MatrixInverse (n : Nat) (M : Matrix (Fin n) (Fin n) ℚ) : Matrix (Fin n) (Fin n) ℚ :=
  (M.det)⁻¹ • M.adjugate

/-- The swap loop of `InverseDiagonalBlock`: for every pair `iVar < jVar` the
entries `(iVar,jVar)` and `(jVar,iVar)` are exchanged and the diagonal is left
alone, i.e. the matrix is transposed entry-wise. -/
def swapOffDiag (n : Nat) (M : Matrix (Fin n) (Fin n) ℚ) : Matrix (Fin n) (Fin n) ℚ :=
  Matrix.of fun i j => M j i

/-- `CSysMatrix::InverseDiagonalBlock` applied to the diagonal block `M`:
invert via `MatrixInverse`, then swap the off-diagonal entries when
`transpose` is set. -/
def InverseDiagonalBlock (n : Nat) (M : Matrix (Fin n) (Fin n) ℚ) (transpose : Bool) :
    Matrix (Fin n) (Fin n) ℚ :=
  if transpose then swapOffDiag n (MatrixInverse n M) else MatrixInverse n M

/-- The state read and written by the three-argument `Gauss_Elimination`:
the flat value array `matrix` of the sparse matrix and the member scratch
buffer `block`. -/
structure GEState where
  matrix : Nat → ℚ
  block : Nat → ℚ

/-- The copy step of `Gauss_Elimination(block_i, rhs, transposed)`: the dense
diagonal block `diagBlock` is copied into the scratch buffer — element-wise
transposed (`block[iVar*nVar+jVar] = Block[jVar*nVar+iVar]`) when
`transposed` — leaving the rest of the scratch buffer as it was. -/
def copyDiagBlock (nVar : Nat) (diagBlock oldBlock : Nat → ℚ) (transposed : Bool) :
    Nat → ℚ :=
  fun k =>
    if k < nVar * nVar then
      if transposed then diagBlock (k % nVar * nVar + k / nVar) else diagBlock k
    else oldBlock k

/-- `CSysMatrix::Gauss_Elimination(block_i, rhs, transposed)`: copy the
diagonal block `&matrix[dia_ptr[block_i]*nVar*nVar]` (optionally transposed)
into the scratch buffer, then call the two-argument overload on the scratch
copy and `rhs`.  Modelled from the spec: the two-argument overload
`Gauss_Elimination(block, rhs)` is not among the sources; per the spec it
solves `block * x = rhs` in place via forward/back substitution with row
pivoting, reading and writing only the scratch block and `rhs`; it is
abstracted here as an arbitrary in-place transformation `innerSolve` of the
pair `(block, rhs)`. -/
def Gauss_Elimination
    (innerSolve : (Nat → ℚ) → (Nat → ℚ) → (Nat → ℚ) × (Nat → ℚ))
    (nVar : Nat) (dia_ptr : List Nat) (s : GEState) (block_i : Nat)
    (rhs : Nat → ℚ) (transposed : Bool) : GEState × (Nat → ℚ) :=
  let diagBlock : Nat → ℚ :=
    fun k => s.matrix (dia_ptr.getD block_i 0 * (nVar * nVar) + k)
  let res := innerSolve (copyDiagBlock nVar diagBlock s.block transposed) rhs
  (⟨s.matrix, res.1⟩, res.2)

/-! ### Partitioner lemmas -/

lemma csbrAux_eq_sum (gc sz r : Nat) :
    csbrAux gc sz r = ∑ i ∈ Finset.range r, sizeOnRank gc sz i := by
  induction r with
  | zero => simp [csbrAux]
  | succ n ih => rw [csbrAux, ih, Finset.sum_range_succ]

lemma sum_ite_lt (n r : Nat) (h : r ≤ n) :
    (∑ i ∈ Finset.range n, (if i < r then 1 else 0)) = r := by
  have hfilter : (Finset.range n).filter (fun i => i < r) = Finset.range r := by
    ext x
    simp only [Finset.mem_filter, Finset.mem_range]
    omega
  rw [Finset.sum_boole, hfilter]
  simp

/-- The per-rank sizes sum to the global count. -/
lemma sum_sizeOnRank (gc sz : Nat) (hsz : 0 < sz) :
    (∑ i ∈ Finset.range sz, sizeOnRank gc sz i) = gc := by
  unfold sizeOnRank
  rw [Finset.sum_add_distrib, Finset.sum_const, Finset.card_range,
    sum_ite_lt sz (gc % sz) (le_of_lt (Nat.mod_lt gc hsz)), smul_eq_mul]
  by_cases h : sz ≤ gc
  · simp only [h, if_true]
    exact Nat.div_add_mod gc sz
  · simp only [h, if_false]
    have hlt : gc % sz = gc := Nat.mod_eq_of_lt (by omega)
    simp [hlt]

lemma csbrAux_size (gc sz : Nat) (hsz : 0 < sz) : csbrAux gc sz sz = gc := by
  rw [csbrAux_eq_sum, sum_sizeOnRank gc sz hsz]

/-- The direct assignment `cumulativeSizeBeforeRank[size] = globalCount`
agrees with the recurrence, so the array equals `csbrAux` everywhere. -/
lemma csbr_eq_aux (gc sz : Nat) (hsz : 0 < sz) (r : Nat) :
    cumulativeSizeBeforeRank gc sz r = csbrAux gc sz r := by
  unfold cumulativeSizeBeforeRank
  by_cases h : r = sz
  · rw [if_pos h, h, csbrAux_size gc sz hsz]
  · rw [if_neg h]

lemma csbrAux_mono (gc sz : Nat) : Monotone (csbrAux gc sz) := by
  apply monotone_nat_of_le_succ
  intro n
  exact Nat.le_add_right _ _

lemma csbr_mono (gc sz : Nat) (hsz : 0 < sz) {r s : Nat} (h : r ≤ s) :
    cumulativeSizeBeforeRank gc sz r ≤ cumulativeSizeBeforeRank gc sz s := by
  rw [csbr_eq_aux gc sz hsz, csbr_eq_aux gc sz hsz]
  exact csbrAux_mono gc sz h

lemma csbr_ge_of_size_le (gc sz : Nat) (hsz : 0 < sz) {r : Nat} (h : sz ≤ r) :
    gc ≤ cumulativeSizeBeforeRank gc sz r := by
  have := csbr_mono gc sz hsz h
  rwa [cumulativeSizeBeforeRank, if_pos rfl] at this

lemma csbr_zero (gc sz : Nat) (hsz : 0 < sz) : cumulativeSizeBeforeRank gc sz 0 = 0 := by
  rw [cumulativeSizeBeforeRank, if_neg (by omega)]
  rfl

/-- Invariant-preservation of the upward walk: starting at any `p` with
`cum[p] ≤ idx`, given fuel at least `sz - p`, it stops at the rank whose
interval contains `idx`. -/
lemma walkUp_correct (gc sz idx : Nat) (hsz : 0 < sz) (hidx : idx < gc) :
    ∀ f p, sz ≤ f + p → cumulativeSizeBeforeRank gc sz p ≤ idx →
      cumulativeSizeBeforeRank gc sz (walkUp gc sz idx f p) ≤ idx ∧
      idx < cumulativeSizeBeforeRank gc sz (walkUp gc sz idx f p + 1) := by
  intro f
  induction f with
  | zero =>
    intro p hfp hp
    have hge := csbr_ge_of_size_le gc sz hsz (show sz ≤ p by omega)
    omega
  | succ n ih =>
    intro p hfp hp
    rw [walkUp]
    by_cases h : cumulativeSizeBeforeRank gc sz (p + 1) ≤ idx
    · rw [if_pos h]
      exact ih (p + 1) (by omega) h
    · rw [if_neg h]
      exact ⟨hp, by omega⟩

/-- Invariant-preservation of the downward walk: starting at any `p` with
`idx < cum[p+1]`, it stops at the rank whose interval contains `idx`. -/
lemma walkDown_correct (gc sz idx : Nat) (hsz : 0 < sz) :
    ∀ p, idx < cumulativeSizeBeforeRank gc sz (p + 1) →
      cumulativeSizeBeforeRank gc sz (walkDown gc sz idx p) ≤ idx ∧
      idx < cumulativeSizeBeforeRank gc sz (walkDown gc sz idx p + 1) := by
  intro p
  induction p with
  | zero =>
    intro h
    rw [walkDown]
    exact ⟨by rw [csbr_zero gc sz hsz]; omega, h⟩
  | succ n ih =>
    intro h
    rw [walkDown]
    by_cases hc : idx < cumulativeSizeBeforeRank gc sz (n + 1)
    · rw [if_pos hc]
      exact ih hc
    · rw [if_neg hc]
      exact ⟨by omega, h⟩

lemma getRank_interval (gc sz idx : Nat) (hsz : 0 < sz) (hidx : idx < gc) :
    cumulativeSizeBeforeRank gc sz (GetRankContainingIndex gc sz idx) ≤ idx ∧
    idx < cumulativeSizeBeforeRank gc sz (GetRankContainingIndex gc sz idx + 1) := by
  unfold GetRankContainingIndex
  by_cases h : cumulativeSizeBeforeRank gc sz (clampedGuess gc sz idx) ≤ idx
  · rw [if_pos h]
    exact walkUp_correct gc sz idx hsz hidx sz (clampedGuess gc sz idx) (by omega) h
  · rw [if_neg h]
    apply walkDown_correct gc sz idx hsz (clampedGuess gc sz idx)
    have := csbr_mono gc sz hsz
      (show clampedGuess gc sz idx ≤ clampedGuess gc sz idx + 1 by omega)
    omega

/-- Any two ranks whose intervals both contain `idx` coincide. -/
lemma rank_unique (gc sz idx : Nat) (hsz : 0 < sz) {a b : Nat}
    (ha1 : cumulativeSizeBeforeRank gc sz a ≤ idx)
    (ha2 : idx < cumulativeSizeBeforeRank gc sz (a + 1))
    (hb1 : cumulativeSizeBeforeRank gc sz b ≤ idx)
    (hb2 : idx < cumulativeSizeBeforeRank gc sz (b + 1)) : a = b := by
  rcases lt_trichotomy a b with h | h | h
  · have := csbr_mono gc sz hsz (show a + 1 ≤ b by omega)
    omega
  · exact h
  · have := csbr_mono gc sz hsz (show b + 1 ≤ a by omega)
    omega

lemma ulongMod_pos : 0 < ulongMod := by
  unfold ulongMod
  omega

lemma lastIndex_lt (gc sz off : Nat) (d : Bool) (i : Nat) :
    lastIndex gc sz off d i < ulongMod := by
  cases i with
  | zero =>
    unfold lastIndex firstLast usub
    exact Nat.mod_lt _ ulongMod_pos
  | succ n =>
    unfold lastIndex firstLast usub
    exact Nat.mod_lt _ ulongMod_pos

/-- Claim C1: for every positive global count and valid global index,
`GetRankContainingIndex` returns the unique rank `r` with
`cumulativeSizeBeforeRank[r] <= index < cumulativeSizeBeforeRank[r+1]`,
including when some ranks have empty partitions: the clamped initial guess
followed by the linear up/down walk lands on that rank. -/
theorem C1_getRankContainingIndex_correct (gc sz idx : Nat) (hsz : 0 < sz)
    (hgc : 0 < gc) (hidx : idx < gc) :
    GetRankContainingIndex gc sz idx < sz ∧
    cumulativeSizeBeforeRank gc sz (GetRankContainingIndex gc sz idx) ≤ idx ∧
    idx < cumulativeSizeBeforeRank gc sz (GetRankContainingIndex gc sz idx + 1) ∧
    ∀ r, cumulativeSizeBeforeRank gc sz r ≤ idx →
      idx < cumulativeSizeBeforeRank gc sz (r + 1) →
      r = GetRankContainingIndex gc sz idx := by
  obtain ⟨h1, h2⟩ := getRank_interval gc sz idx hsz hidx
  refine ⟨?_, h1, h2, ?_⟩
  · by_contra hge
    have := csbr_ge_of_size_le gc sz hsz
      (show sz ≤ GetRankContainingIndex gc sz idx by omega)
    omega
  · intro r hr1 hr2
    exact rank_unique gc sz idx hsz hr1 hr2 h1 h2

/-- Witness for C1 at `globalCount = 2`, `size = 5` (empty partitions on the
last three ranks), `index = 1`. -/
theorem C1_witness :
    (0 : Nat) < 5 ∧ (0 : Nat) < 2 ∧ (1 : Nat) < 2 ∧
    (GetRankContainingIndex 2 5 1 < 5 ∧
     cumulativeSizeBeforeRank 2 5 (GetRankContainingIndex 2 5 1) ≤ 1 ∧
     1 < cumulativeSizeBeforeRank 2 5 (GetRankContainingIndex 2 5 1 + 1) ∧
     ∀ r, cumulativeSizeBeforeRank 2 5 r ≤ 1 →
       1 < cumulativeSizeBeforeRank 2 5 (r + 1) →
       r = GetRankContainingIndex 2 5 1) :=
  ⟨by decide, by decide, by decide,
   C1_getRankContainingIndex_correct 2 5 1 (by decide) (by decide) (by decide)⟩

/-- Claim C2: the constructor produces `sizeOnRank` summing to `globalCount`,
a non-decreasing `cumulativeSizeBeforeRank` array, and
`cumulativeSizeBeforeRank[size] == globalCount`. -/
theorem C2_partitioner_complete (gc sz : Nat) (hsz : 0 < sz) :
    (∑ i ∈ Finset.range sz, sizeOnRank gc sz i) = gc ∧
    (∀ r s, r ≤ s → s ≤ sz →
      cumulativeSizeBeforeRank gc sz r ≤ cumulativeSizeBeforeRank gc sz s) ∧
    cumulativeSizeBeforeRank gc sz sz = gc := by
  refine ⟨sum_sizeOnRank gc sz hsz, fun r s hrs _ => csbr_mono gc sz hsz hrs, ?_⟩
  rw [cumulativeSizeBeforeRank, if_pos rfl]

/-- Witness for C2 at `globalCount = 7`, `size = 3`. -/
theorem C2_witness :
    (0 : Nat) < 3 ∧
    ((∑ i ∈ Finset.range 3, sizeOnRank 7 3 i) = 7 ∧
     (∀ r s, r ≤ s → s ≤ 3 →
       cumulativeSizeBeforeRank 7 3 r ≤ cumulativeSizeBeforeRank 7 3 s) ∧
     cumulativeSizeBeforeRank 7 3 3 = 7) :=
  ⟨by decide, C2_partitioner_complete 7 3 (by decide)⟩

/-- Claim C3: the constructor assigns `quotient + 1` to the first
`globalCount mod size` ranks and `quotient` to the rest, with
`quotient = globalCount / size` in integer division. -/
theorem C3_sizeOnRank_split (gc sz r : Nat) (hsz : 0 < sz) :
    sizeOnRank gc sz r = gc / sz + (if r < gc % sz then 1 else 0) := by
  unfold sizeOnRank
  by_cases h : sz ≤ gc
  · rw [if_pos h]
  · rw [if_neg h, Nat.div_eq_of_lt (by omega)]

/-- Witness for C3 at `globalCount = 7`, `size = 3`, `rank = 1`. -/
theorem C3_witness :
    (0 : Nat) < 3 ∧ sizeOnRank 7 3 1 = 7 / 3 + (if 1 < 7 % 3 then 1 else 0) :=
  ⟨by decide, C3_sizeOnRank_split 7 3 1 (by decide)⟩

/-- Claim C4: for consecutive ranks, with `isDisjoint == false` the ranges share
exactly the boundary index (`lastIndex[i] == firstIndex[i+1]`), while with
`isDisjoint == true` the overlap is removed
(`firstIndex[i+1] == lastIndex[i] + 1`, the equality being that of the
program's 64-bit unsigned arithmetic). -/
theorem C4_boundary_overlap (gc sz off i : Nat) (hi : i + 1 < sz) :
    lastIndex gc sz off false i = firstIndex gc sz off false (i + 1) ∧
    firstIndex gc sz off true (i + 1) = (lastIndex gc sz off true i + 1) % ulongMod := by
  constructor
  · have h1 : firstIndex gc sz off false (i + 1)
        = (lastIndex gc sz off false i + 0) % ulongMod := rfl
    rw [h1, Nat.add_zero, Nat.mod_eq_of_lt (lastIndex_lt gc sz off false i)]
  · rfl

/-- Witness for C4 at `globalCount = 5`, `size = 2`, `offset = 0`, `i = 0`. -/
theorem C4_witness :
    (0 : Nat) + 1 < 2 ∧
    (lastIndex 5 2 0 false 0 = firstIndex 5 2 0 false (0 + 1) ∧
     firstIndex 5 2 0 true (0 + 1) = (lastIndex 5 2 0 true 0 + 1) % ulongMod) :=
  ⟨by decide, C4_boundary_overlap 5 2 0 0 (by decide)⟩

/-- Claim C9: the unguarded division in `GetRankContainingIndex` is by
`sizeOnRank[0]`, which vanishes exactly when `globalCount == 0`; under
`globalCount >= 1` the divisor is positive, and the downward walk never
decrements the rank below `0` because `cumulativeSizeBeforeRank[0] == 0`
makes the loop guard false at rank `0`. -/
theorem C9_division_guard (gc sz idx : Nat) (hsz : 0 < sz) :
    (sizeOnRank gc sz 0 = 0 ↔ gc = 0) ∧
    cumulativeSizeBeforeRank gc sz 0 = 0 ∧
    ¬ idx < cumulativeSizeBeforeRank gc sz 0 ∧
    walkDown gc sz idx 0 = 0 := by
  refine ⟨⟨?_, ?_⟩, csbr_zero gc sz hsz, ?_, rfl⟩
  · intro h
    by_contra hgc
    unfold sizeOnRank at h
    by_cases hle : sz ≤ gc
    · rw [if_pos hle] at h
      have := Nat.div_pos hle hsz
      omega
    · rw [if_neg hle] at h
      have hmod : gc % sz = gc := Nat.mod_eq_of_lt (by omega)
      rw [hmod, if_pos (by omega)] at h
      omega
  · intro h
    rw [h]
    unfold sizeOnRank
    rw [if_neg (by omega), Nat.zero_mod]
    simp
  · rw [csbr_zero gc sz hsz]
    omega

lemma declaredILU_iff_findIndexILU (S : SparsityILU) (i j : Nat) :
    declaredILU S i j = true ↔ (findIndexILU S i j).isSome = true := by
  unfold declaredILU findIndexILU
  simp [List.any_eq_true, List.find?_isSome]

/-- Claim C5: for a declared ILU block pair, `SetBlock_ILUMatrix` followed by
`GetBlock_ILUMatrix` returns a block equal to the one stored; for an
undeclared pair, `GetBlock_ILUMatrix` returns `NULL` and `SetBlock_ILUMatrix`
leaves the values unchanged. -/
theorem C5_ilu_block_roundtrip (S : SparsityILU) (mat : Nat → ℚ) (i j : Nat)
    (B : Nat → ℚ) :
    (declaredILU S i j = true →
      ∃ g, GetBlock_ILUMatrix S (SetBlock_ILUMatrix S mat i j B) i j = some g ∧
        ∀ k, k < S.nVar * S.nEqn → g k = B k) ∧
    (declaredILU S i j = false →
      GetBlock_ILUMatrix S mat i j = none ∧
      SetBlock_ILUMatrix S mat i j B = mat) := by
  constructor
  · intro hdecl
    have hsome : (findIndexILU S i j).isSome = true :=
      (declaredILU_iff_findIndexILU S i j).mp hdecl
    obtain ⟨ix, hix⟩ := Option.isSome_iff_exists.mp hsome
    have hset : SetBlock_ILUMatrix S mat i j B = fun k =>
        if ix * (S.nVar * S.nEqn) ≤ k ∧ k < ix * (S.nVar * S.nEqn) + S.nVar * S.nEqn
        then B (k - ix * (S.nVar * S.nEqn)) else mat k := by
      unfold SetBlock_ILUMatrix
      rw [hix]
    have hget : GetBlock_ILUMatrix S (SetBlock_ILUMatrix S mat i j B) i j =
        some (fun k => SetBlock_ILUMatrix S mat i j B (ix * (S.nVar * S.nEqn) + k)) := by
      unfold GetBlock_ILUMatrix
      rw [hix]
    refine ⟨_, hget, ?_⟩
    intro k hk
    rw [hset]
    simp only
    rw [if_pos ⟨Nat.le_add_right _ _, by omega⟩]
    congr 1
    omega
  · intro hndecl
    have hnone : findIndexILU S i j = none := by
      rcases h : findIndexILU S i j with _ | ix
      · rfl
      · have : declaredILU S i j = true := by
          rw [declaredILU_iff_findIndexILU, h]
          rfl
        rw [this] at hndecl
        cases hndecl
    constructor
    · unfold GetBlock_ILUMatrix
      rw [hnone]
    · unfold SetBlock_ILUMatrix
      rw [hnone]

/-- Witness for C5: pattern with rows `{0,1}` and `{2}`, blocks `2 × 1`;
pair `(0,1)` is declared, pair `(0,2)` is not. -/
theorem C5_witness :
    declaredILU ⟨[0, 2, 3], [0, 1, 2], 2, 1⟩ 0 1 = true ∧
    declaredILU ⟨[0, 2, 3], [0, 1, 2], 2, 1⟩ 0 2 = false ∧
    (∃ g, GetBlock_ILUMatrix ⟨[0, 2, 3], [0, 1, 2], 2, 1⟩
        (SetBlock_ILUMatrix ⟨[0, 2, 3], [0, 1, 2], 2, 1⟩ (fun _ => 0) 0 1
          (fun k => (k : ℚ) + 5)) 0 1 = some g ∧
        ∀ k, k < (2 : Nat) * 1 → g k = (k : ℚ) + 5) ∧
    (GetBlock_ILUMatrix ⟨[0, 2, 3], [0, 1, 2], 2, 1⟩ (fun _ => 0) 0 2 = none ∧
     SetBlock_ILUMatrix ⟨[0, 2, 3], [0, 1, 2], 2, 1⟩ (fun _ => 0) 0 2
       (fun k => (k : ℚ) + 5) = fun _ => 0) :=
  ⟨by decide, by decide,
   (C5_ilu_block_roundtrip ⟨[0, 2, 3], [0, 1, 2], 2, 1⟩ (fun _ => 0) 0 1
     (fun k => (k : ℚ) + 5)).1 (by decide),
   (C5_ilu_block_roundtrip ⟨[0, 2, 3], [0, 1, 2], 2, 1⟩ (fun _ => 0) 0 2
     (fun k => (k : ℚ) + 5)).2 (by decide)⟩

/-- Unfolding of one `gemvInnerStep` with `transp = false`. -/
lemma gemvInnerStep_nontransp (alpha : Bool) (n : Nat) (a b : Nat → ℚ) (i : Nat)
    (c : Nat → ℚ) (j : Nat) :
    gemvInnerStep alpha false n a b i c j
      = Function.update c i
          (c i + (if alpha then (1 : ℚ) else -1) * (a (i * n + j) * b j)) := rfl

/-- Unfolding of one `gemvInnerStep` with `transp = true`. -/
lemma gemvInnerStep_transp (alpha : Bool) (n : Nat) (a b : Nat → ℚ) (i : Nat)
    (c : Nat → ℚ) (j : Nat) :
    gemvInnerStep alpha true n a b i c j
      = Function.update c j
          (c j + (if alpha then (1 : ℚ) else -1) * (a (i * n + j) * b i)) := rfl

/-- Closed form of the inner loop of `gemv_impl` for `transp = false`: row
`i`'s dot product is accumulated into `c[i]` and nothing else changes. -/
lemma foldl_inner_nontransp (alpha : Bool) (n : Nat) (a b : Nat → ℚ) (i : Nat)
    (c : Nat → ℚ) (m : Nat) :
    (List.range m).foldl (gemvInnerStep alpha false n a b i) c
      = Function.update c i
          (c i + (if alpha then (1 : ℚ) else -1) *
            ∑ j ∈ Finset.range m, a (i * n + j) * b j) := by
  induction m with
  | zero =>
    simp [Function.update_eq_self]
  | succ m ih =>
    rw [List.range_succ, List.foldl_append, List.foldl_cons, List.foldl_nil, ih,
      gemvInnerStep_nontransp, Function.update_same, Function.update_idem,
      Finset.sum_range_succ]
    refine congrArg (Function.update c i) ?_
    ring

/-- Closed form of the inner loop of `gemv_impl` for `transp = true`: outer
iteration `i` adds `a[i*n+j] * b[i]` into each `c[j]`, `j < m`. -/
lemma foldl_inner_transp (alpha : Bool) (n : Nat) (a b : Nat → ℚ) (i : Nat) :
    ∀ (m : Nat) (c : Nat → ℚ) (k : Nat),
    ((List.range m).foldl (gemvInnerStep alpha true n a b i) c) k
      = c k + (if k < m then
          (if alpha then (1 : ℚ) else -1) * (a (i * n + k) * b i) else 0) := by
  intro m
  induction m with
  | zero =>
    intro c k
    simp
  | succ m ih =>
    intro c k
    rw [List.range_succ, List.foldl_append, List.foldl_cons, List.foldl_nil,
      gemvInnerStep_transp]
    by_cases hk : k = m
    · rw [hk, Function.update_same, ih c m, if_neg (show ¬ m < m by omega),
        if_pos (show m < m + 1 by omega)]
      ring
    · rw [Function.update_noteq hk, ih c k]
      by_cases hkm : k < m
      · rw [if_pos hkm, if_pos (show k < m + 1 by omega)]
      · rw [if_neg hkm, if_neg (show ¬ k < m + 1 by omega)]

/-- The once-per-position update structure of the outer loop when each outer
iteration `i` only rewrites position `i`. -/
lemma foldl_update_range (g : ℚ → Nat → ℚ) :
    ∀ (m : Nat) (c : Nat → ℚ) (k : Nat),
    ((List.range m).foldl (fun acc i => Function.update acc i (g (acc i) i)) c) k
      = if k < m then g (c k) k else c k := by
  intro m
  induction m with
  | zero =>
    intro c k
    simp
  | succ m ih =>
    intro c k
    simp only [List.range_succ, List.foldl_append, List.foldl_cons, List.foldl_nil]
    by_cases hk : k = m
    · rw [hk, Function.update_same, ih c m, if_neg (by omega), if_pos (by omega)]
    · rw [Function.update_noteq hk, ih c k]
      by_cases hkm : k < m
      · rw [if_pos hkm, if_pos (by omega)]
      · rw [if_neg hkm, if_neg (by omega)]

/-- Closed form of `gemv_impl` with `transp = false`: position `k < n` holds
`(beta ? c[k] : 0) ± Σ_j a[k*n+j]*b[j]`. -/
lemma gemv_nontransp (alpha beta : Bool) (n : Nat) (a b c : Nat → ℚ) (k : Nat)
    (hk : k < n) :
    gemv_impl alpha beta false n a b c k
      = (if beta then c k else 0) +
        (if alpha then (1 : ℚ) else -1) * ∑ j ∈ Finset.range n, a (k * n + j) * b j := by
  have hfold := foldl_update_range
    (fun x i => (if beta then x else (0 : ℚ)) +
      (if alpha then (1 : ℚ) else -1) * ∑ j ∈ Finset.range n, a (i * n + j) * b j)
    n c k
  rw [if_pos hk] at hfold
  have hstep : (fun (acc : Nat → ℚ) i =>
      (List.range n).foldl (gemvInnerStep alpha false n a b i)
        (if beta then acc else Function.update acc i 0))
      = fun (acc : Nat → ℚ) i => Function.update acc i
          ((if beta then acc i else (0 : ℚ)) +
            (if alpha then (1 : ℚ) else -1) * ∑ j ∈ Finset.range n, a (i * n + j) * b j) := by
    funext acc i
    cases beta with
    | false =>
      have h1 : (if (false : Bool) = true then acc else Function.update acc i 0)
          = Function.update acc i 0 := rfl
      have h2 : (if (false : Bool) = true then acc i else (0 : ℚ)) = 0 := rfl
      rw [h1, h2, foldl_inner_nontransp, Function.update_same, Function.update_idem]
    | true =>
      have h1 : (if (true : Bool) = true then acc else Function.update acc i 0) = acc := rfl
      have h2 : (if (true : Bool) = true then acc i else (0 : ℚ)) = acc i := rfl
      rw [h1, h2, foldl_inner_nontransp]
  rw [gemv_impl, hstep]
  exact hfold

/-- Closed form of `gemv_impl` with `transp = true`, `beta = true`: position
`k < n` accumulates the transposed product on top of the prior `c[k]`. -/
lemma gemv_transp_acc (alpha : Bool) (n : Nat) (a b c : Nat → ℚ) (k : Nat)
    (hk : k < n) :
    gemv_impl alpha true true n a b c k
      = c k + (if alpha then (1 : ℚ) else -1) *
          ∑ i ∈ Finset.range n, a (i * n + k) * b i := by
  have haux : ∀ (m : Nat) (c0 : Nat → ℚ),
      ((List.range m).foldl (fun (acc : Nat → ℚ) i =>
        (List.range n).foldl (gemvInnerStep alpha true n a b i) acc) c0) k
      = c0 k + (if alpha then (1 : ℚ) else -1) *
          ∑ i ∈ Finset.range m, a (i * n + k) * b i := by
    intro m
    induction m with
    | zero =>
      intro c0
      simp
    | succ m ih =>
      intro c0
      simp only [List.range_succ, List.foldl_append, List.foldl_cons, List.foldl_nil]
      rw [foldl_inner_transp, ih c0, if_pos hk, Finset.sum_range_succ]
      ring
  have hstep : (fun (acc : Nat → ℚ) i =>
      (List.range n).foldl (gemvInnerStep alpha true n a b i)
        (if (true : Bool) = true then acc else Function.update acc i 0))
      = fun (acc : Nat → ℚ) i =>
        (List.range n).foldl (gemvInnerStep alpha true n a b i) acc := rfl
  rw [gemv_impl, hstep]
  exact haux n c

/-- Claim C10: `MatrixVectorProductTransp(A, b, c)` accumulates, leaving `c`
equal to its prior contents plus `Aᵀ b` (beta is true in its `gemv_impl`
instantiation), whereas plain `MatrixVectorProduct(A, b, c)` first zeroes `c`
and leaves it equal to `A b`. -/
theorem C10_transp_accumulates (n : Nat) (A b c : Nat → ℚ) (k : Nat) (hk : k < n) :
    MatrixVectorProductTransp n A b c k
      = c k + ∑ i ∈ Finset.range n, A (i * n + k) * b i ∧
    MatrixVectorProduct n A b c k
      = ∑ j ∈ Finset.range n, A (k * n + j) * b j := by
  constructor
  · rw [MatrixVectorProductTransp, gemv_transp_acc true n A b c k hk, if_pos rfl, one_mul]
  · rw [MatrixVectorProduct, gemv_nontransp true false n A b c k hk, if_pos rfl,
      if_neg (by simp), one_mul, zero_add]

/-- Witness for C10 at `n = 2` with concrete rational data. -/
theorem C10_witness :
    (0 : Nat) < 2 ∧
    (MatrixVectorProductTransp 2 (fun m => (m : ℚ) + 1) (fun m => (m : ℚ) + 2)
        (fun m => (m : ℚ) + 7) 0
      = ((0 : Nat) : ℚ) + 7 + ∑ i ∈ Finset.range 2, ((i * 2 + 0 : Nat) + 1) * ((i : ℚ) + 2) ∧
     MatrixVectorProduct 2 (fun m => (m : ℚ) + 1) (fun m => (m : ℚ) + 2)
        (fun m => (m : ℚ) + 7) 0
      = ∑ j ∈ Finset.range 2, ((0 * 2 + j : Nat) + 1) * ((j : ℚ) + 2)) :=
  ⟨by decide,
   C10_transp_accumulates 2 (fun m => (m : ℚ) + 1) (fun m => (m : ℚ) + 2)
     (fun m => (m : ℚ) + 7) 0 (by decide)⟩

/-- Folding `MatrixVectorProductAdd` over a list of storage indices adds the
per-block row products on top of the initial buffer, at every `k < n`. -/
lemma foldl_mvpadd (n : Nat) (A bv : Nat → Nat → ℚ) :
    ∀ (L : List Nat) (init : Nat → ℚ) (k : Nat), k < n →
    (L.foldl (fun acc index => MatrixVectorProductAdd n (A index) (bv index) acc) init) k
      = init k +
        (L.map (fun index => ∑ j ∈ Finset.range n, A index (k * n + j) * bv index j)).sum := by
  intro L
  induction L with
  | nil =>
    intro init k hk
    simp
  | cons x L ih =>
    intro init k hk
    rw [List.foldl_cons, ih _ k hk, List.map_cons, List.sum_cons]
    have hx : MatrixVectorProductAdd n (A x) (bv x) init k
        = init k + ∑ j ∈ Finset.range n, A x (k * n + j) * bv x j := by
      have h := gemv_nontransp true true n (A x) (bv x) init k hk
      rw [if_pos rfl, if_pos rfl, one_mul] at h
      exact h
    rw [hx]
    ring

/-- Sum over the storage indices `[a, a+cnt)` written as a list fold equals the
`Finset.Ico` sum. -/
lemma range'_map_sum (f : Nat → ℚ) : ∀ (cnt a : Nat),
    ((List.range' a cnt).map f).sum = ∑ i ∈ Finset.Ico a (a + cnt), f i := by
  intro cnt
  induction cnt with
  | zero =>
    intro a
    simp
  | succ m ih =>
    intro a
    rw [List.range'_succ, List.map_cons, List.sum_cons, ih (a + 1),
      Finset.sum_eq_sum_Ico_succ_bot (show a < a + (m + 1) by omega) f]
    have hb : a + 1 + m = a + (m + 1) := by omega
    rw [hb]

/-- Under sortedness and a correct diagonal pointer, the storage indices after
the diagonal are exactly the entries with column greater than the row. -/
lemma filter_span_upper (col : Nat → Nat) (rp0 rp1 dia i : Nat)
    (hlo : rp0 ≤ dia) (hhi : dia < rp1) (hcol : col dia = i)
    (hsorted : ∀ a ∈ Finset.Ico rp0 rp1, ∀ b ∈ Finset.Ico rp0 rp1, a < b → col a < col b) :
    (Finset.Ico rp0 rp1).filter (fun ix => i < col ix) = Finset.Ico (dia + 1) rp1 := by
  ext x
  simp only [Finset.mem_filter, Finset.mem_Ico]
  constructor
  · rintro ⟨⟨hx1, hx2⟩, hcolx⟩
    refine ⟨?_, hx2⟩
    rcases lt_trichotomy x dia with hlt | heq | hgt
    · have := hsorted x (Finset.mem_Ico.mpr ⟨hx1, hx2⟩) dia
        (Finset.mem_Ico.mpr ⟨hlo, hhi⟩) hlt
      omega
    · rw [heq] at hcolx
      omega
    · omega
  · rintro ⟨hx1, hx2⟩
    have hd := hsorted dia (Finset.mem_Ico.mpr ⟨hlo, hhi⟩) x
      (Finset.mem_Ico.mpr ⟨by omega, hx2⟩) (by omega)
    exact ⟨⟨by omega, hx2⟩, by omega⟩

/-- Under sortedness and a correct diagonal pointer, the storage indices before
the diagonal are exactly the entries with column less than the row. -/
lemma filter_span_lower (col : Nat → Nat) (rp0 rp1 dia i : Nat)
    (hlo : rp0 ≤ dia) (hhi : dia < rp1) (hcol : col dia = i)
    (hsorted : ∀ a ∈ Finset.Ico rp0 rp1, ∀ b ∈ Finset.Ico rp0 rp1, a < b → col a < col b) :
    (Finset.Ico rp0 rp1).filter (fun ix => col ix < i) = Finset.Ico rp0 dia := by
  ext x
  simp only [Finset.mem_filter, Finset.mem_Ico]
  constructor
  · rintro ⟨⟨hx1, hx2⟩, hcolx⟩
    refine ⟨hx1, ?_⟩
    rcases lt_trichotomy x dia with hlt | heq | hgt
    · omega
    · rw [heq] at hcolx
      omega
    · have := hsorted dia (Finset.mem_Ico.mpr ⟨hlo, hhi⟩) x
        (Finset.mem_Ico.mpr ⟨hx1, hx2⟩) hgt
      omega
  · rintro ⟨hx1, hx2⟩
    have := hsorted x (Finset.mem_Ico.mpr ⟨hx1, by omega⟩) dia
      (Finset.mem_Ico.mpr ⟨hlo, hhi⟩) hx2
    exact ⟨⟨hx1, by omega⟩, by omega⟩

/-- Under sortedness and a correct diagonal pointer, the unique storage index
with column equal to the row is the diagonal pointer. -/
lemma filter_span_diag (col : Nat → Nat) (rp0 rp1 dia i : Nat)
    (hlo : rp0 ≤ dia) (hhi : dia < rp1) (hcol : col dia = i)
    (hsorted : ∀ a ∈ Finset.Ico rp0 rp1, ∀ b ∈ Finset.Ico rp0 rp1, a < b → col a < col b) :
    (Finset.Ico rp0 rp1).filter (fun ix => col ix = i) = {dia} := by
  ext x
  simp only [Finset.mem_filter, Finset.mem_Ico, Finset.mem_singleton]
  constructor
  · rintro ⟨⟨hx1, hx2⟩, hcolx⟩
    rcases lt_trichotomy x dia with hlt | heq | hgt
    · have := hsorted x (Finset.mem_Ico.mpr ⟨hx1, hx2⟩) dia
        (Finset.mem_Ico.mpr ⟨hlo, hhi⟩) hlt
      omega
    · exact heq
    · have := hsorted dia (Finset.mem_Ico.mpr ⟨hlo, hhi⟩) x
        (Finset.mem_Ico.mpr ⟨hx1, hx2⟩) hgt
      omega
  · intro hx
    rw [hx]
    exact ⟨⟨hlo, hhi⟩, hcol⟩

/-- Claim C6: under within-row sortedness of the stored column indices and a
diagonal pointer satisfying `col_ind[dia_ptr[i]] == i`, `UpperProduct`,
`LowerProduct` and `DiagonalProduct` compute the partial row products over the
stored columns `j > i`, `j < i` and `j == i` respectively (the code restricts
by storage position relative to `dia_ptr[i]`, which matches the column
comparison only under sortedness). -/
theorem C6_partial_row_products (M : CSRMatrix) (vec prv : Nat → ℚ) (row_i : Nat)
    (hlo : M.row_ptr.getD row_i 0 ≤ M.dia_ptr.getD row_i 0)
    (hhi : M.dia_ptr.getD row_i 0 < M.row_ptr.getD (row_i + 1) 0)
    (hcol : M.col_ind.getD (M.dia_ptr.getD row_i 0) 0 = row_i)
    (hsorted : ∀ a ∈ Finset.Ico (M.row_ptr.getD row_i 0) (M.row_ptr.getD (row_i + 1) 0),
      ∀ b ∈ Finset.Ico (M.row_ptr.getD row_i 0) (M.row_ptr.getD (row_i + 1) 0),
      a < b → M.col_ind.getD a 0 < M.col_ind.getD b 0) :
    ∀ k, k < M.nVar →
      UpperProduct M vec row_i prv k
        = rowProductFiltered M vec row_i (fun c => row_i < c) k ∧
      LowerProduct M vec row_i prv k
        = rowProductFiltered M vec row_i (fun c => c < row_i) k ∧
      DiagonalProduct M vec row_i prv k
        = rowProductFiltered M vec row_i (fun c => c = row_i) k := by
  intro k hk
  have hzero : zeroFirst M.nVar prv k = 0 := by
    rw [zeroFirst.eq_1, if_pos hk]
  refine ⟨?_, ?_, ?_⟩
  · have h1 : UpperProduct M vec row_i prv k
        = zeroFirst M.nVar prv k +
          ((List.range' (M.dia_ptr.getD row_i 0 + 1)
              (M.row_ptr.getD (row_i + 1) 0 - (M.dia_ptr.getD row_i 0 + 1))).map
            (fun index => ∑ j ∈ Finset.range M.nVar,
              M.matrix (index * (M.nVar * M.nVar) + (k * M.nVar + j)) *
                vec (M.col_ind.getD index 0 * M.nVar + j))).sum :=
      foldl_mvpadd M.nVar
        (fun index => fun k2 => M.matrix (index * (M.nVar * M.nVar) + k2))
        (fun index => fun k2 => vec (M.col_ind.getD index 0 * M.nVar + k2))
        (List.range' (M.dia_ptr.getD row_i 0 + 1)
          (M.row_ptr.getD (row_i + 1) 0 - (M.dia_ptr.getD row_i 0 + 1)))
        (zeroFirst M.nVar prv) k hk
    rw [h1, hzero, zero_add, range'_map_sum,
      (show M.dia_ptr.getD row_i 0 + 1 +
          (M.row_ptr.getD (row_i + 1) 0 - (M.dia_ptr.getD row_i 0 + 1))
        = M.row_ptr.getD (row_i + 1) 0 by omega),
      rowProductFiltered,
      filter_span_upper (fun ix => M.col_ind.getD ix 0) (M.row_ptr.getD row_i 0)
        (M.row_ptr.getD (row_i + 1) 0) (M.dia_ptr.getD row_i 0) row_i hlo hhi hcol hsorted]
    simp only [Nat.add_assoc]
  · have h1 : LowerProduct M vec row_i prv k
        = zeroFirst M.nVar prv k +
          ((List.range' (M.row_ptr.getD row_i 0)
              (M.dia_ptr.getD row_i 0 - M.row_ptr.getD row_i 0)).map
            (fun index => ∑ j ∈ Finset.range M.nVar,
              M.matrix (index * (M.nVar * M.nVar) + (k * M.nVar + j)) *
                vec (M.col_ind.getD index 0 * M.nVar + j))).sum :=
      foldl_mvpadd M.nVar
        (fun index => fun k2 => M.matrix (index * (M.nVar * M.nVar) + k2))
        (fun index => fun k2 => vec (M.col_ind.getD index 0 * M.nVar + k2))
        (List.range' (M.row_ptr.getD row_i 0)
          (M.dia_ptr.getD row_i 0 - M.row_ptr.getD row_i 0))
        (zeroFirst M.nVar prv) k hk
    rw [h1, hzero, zero_add, range'_map_sum,
      (show M.row_ptr.getD row_i 0 + (M.dia_ptr.getD row_i 0 - M.row_ptr.getD row_i 0)
        = M.dia_ptr.getD row_i 0 by omega),
      rowProductFiltered,
      filter_span_lower (fun ix => M.col_ind.getD ix 0) (M.row_ptr.getD row_i 0)
        (M.row_ptr.getD (row_i + 1) 0) (M.dia_ptr.getD row_i 0) row_i hlo hhi hcol hsorted]
    simp only [Nat.add_assoc]
  · have hD : DiagonalProduct M vec row_i prv k
        = ∑ j ∈ Finset.range M.nVar,
            M.matrix (M.dia_ptr.getD row_i 0 * (M.nVar * M.nVar) + (k * M.nVar + j)) *
              vec (row_i * M.nVar + j) := by
      have h := gemv_nontransp true false M.nVar
        (fun k2 => M.matrix (M.dia_ptr.getD row_i 0 * (M.nVar * M.nVar) + k2))
        (fun k2 => vec (row_i * M.nVar + k2)) prv k hk
      rw [if_neg (Bool.false_ne_true), if_pos rfl, one_mul, zero_add] at h
      exact h
    rw [hD, rowProductFiltered,
      filter_span_diag (fun ix => M.col_ind.getD ix 0) (M.row_ptr.getD row_i 0)
        (M.row_ptr.getD (row_i + 1) 0) (M.dia_ptr.getD row_i 0) row_i hlo hhi hcol hsorted,
      Finset.sum_singleton, hcol]
    simp only [Nat.add_assoc]

/-- Witness for C6 on `exampleCSR` at row `1` (diagonal pointer `3`,
row span `[2,4)`, columns `0,1`). -/
theorem C6_witness :
    exampleCSR.row_ptr.getD 1 0 ≤ exampleCSR.dia_ptr.getD 1 0 ∧
    exampleCSR.dia_ptr.getD 1 0 < exampleCSR.row_ptr.getD 2 0 ∧
    exampleCSR.col_ind.getD (exampleCSR.dia_ptr.getD 1 0) 0 = 1 ∧
    (∀ a ∈ Finset.Ico (exampleCSR.row_ptr.getD 1 0) (exampleCSR.row_ptr.getD 2 0),
      ∀ b ∈ Finset.Ico (exampleCSR.row_ptr.getD 1 0) (exampleCSR.row_ptr.getD 2 0),
      a < b → exampleCSR.col_ind.getD a 0 < exampleCSR.col_ind.getD b 0) ∧
    (∀ k, k < exampleCSR.nVar →
      UpperProduct exampleCSR (fun m => (m : ℚ) + 1) 1 (fun _ => 9) k
        = rowProductFiltered exampleCSR (fun m => (m : ℚ) + 1) 1 (fun c => 1 < c) k ∧
      LowerProduct exampleCSR (fun m => (m : ℚ) + 1) 1 (fun _ => 9) k
        = rowProductFiltered exampleCSR (fun m => (m : ℚ) + 1) 1 (fun c => c < 1) k ∧
      DiagonalProduct exampleCSR (fun m => (m : ℚ) + 1) 1 (fun _ => 9) k
        = rowProductFiltered exampleCSR (fun m => (m : ℚ) + 1) 1 (fun c => c = 1) k) :=
  ⟨by decide, by decide, by decide, by decide,
   C6_partial_row_products exampleCSR (fun m => (m : ℚ) + 1) (fun _ => 9) 1
     (by decide) (by decide) (by decide) (by decide)⟩

lemma matrixInverse_eq_inv (n : Nat) (M : Matrix (Fin n) (Fin n) ℚ) :
    MatrixInverse n M = M⁻¹ := by
  rw [MatrixInverse, Matrix.inv_def, Ring.inverse_eq_inv]

/-- Claim C7: with `transpose = true`, `InverseDiagonalBlock` produces exactly
the matrix transpose of its `transpose = false` result (the swap of every
off-diagonal pair), which equals the inverse of the transposed block. -/
theorem C7_inverse_diag_transpose (n : Nat) (M : Matrix (Fin n) (Fin n) ℚ)
    (h : IsUnit M.det) :
    InverseDiagonalBlock n M true = Matrix.transpose (InverseDiagonalBlock n M false) ∧
    InverseDiagonalBlock n M true = (Matrix.transpose M)⁻¹ := by
  constructor
  · rfl
  · show swapOffDiag n (MatrixInverse n M) = (Matrix.transpose M)⁻¹
    rw [show swapOffDiag n (MatrixInverse n M) = Matrix.transpose (MatrixInverse n M) from rfl,
      matrixInverse_eq_inv, Matrix.transpose_nonsing_inv]

/-- Witness for C7 on the invertible block `!![1, 2; 3, 4]`. -/
theorem C7_witness :
    IsUnit (Matrix.det !![(1 : ℚ), 2; 3, 4]) ∧
    (InverseDiagonalBlock 2 !![(1 : ℚ), 2; 3, 4] true
        = Matrix.transpose (InverseDiagonalBlock 2 !![(1 : ℚ), 2; 3, 4] false) ∧
     InverseDiagonalBlock 2 !![(1 : ℚ), 2; 3, 4] true = (Matrix.transpose !![(1 : ℚ), 2; 3, 4])⁻¹) :=
  ⟨isUnit_iff_ne_zero.mpr (by rw [Matrix.det_fin_two_of]; norm_num),
   C7_inverse_diag_transpose 2 !![(1 : ℚ), 2; 3, 4]
     (isUnit_iff_ne_zero.mpr (by rw [Matrix.det_fin_two_of]; norm_num))⟩

/-- Claim C8: `Gauss_Elimination(block_i, rhs, transposed)` copies the diagonal
block (element-wise transposed when `transposed`) into the scratch buffer and
solves on that copy, so the stored value array `matrix` is unchanged by the
call; only `rhs` and the scratch buffer are modified. -/
theorem C8_gauss_elimination_frame
    (innerSolve : (Nat → ℚ) → (Nat → ℚ) → (Nat → ℚ) × (Nat → ℚ))
    (nVar : Nat) (dia_ptr : List Nat) (s : GEState) (block_i : Nat)
    (rhs : Nat → ℚ) (transposed : Bool) :
    (Gauss_Elimination innerSolve nVar dia_ptr s block_i rhs transposed).1.matrix
      = s.matrix ∧
    (Gauss_Elimination innerSolve nVar dia_ptr s block_i rhs transposed).1.block
      = (innerSolve (copyDiagBlock nVar
          (fun k => s.matrix (dia_ptr.getD block_i 0 * (nVar * nVar) + k))
          s.block transposed) rhs).1 ∧
    (Gauss_Elimination innerSolve nVar dia_ptr s block_i rhs transposed).2
      = (innerSolve (copyDiagBlock nVar
          (fun k => s.matrix (dia_ptr.getD block_i 0 * (nVar * nVar) + k))
          s.block transposed) rhs).2 ∧
    (∀ iV jV, iV < nVar → jV < nVar →
      copyDiagBlock nVar
          (fun k => s.matrix (dia_ptr.getD block_i 0 * (nVar * nVar) + k))
          s.block transposed (iV * nVar + jV)
        = s.matrix (dia_ptr.getD block_i 0 * (nVar * nVar) +
            (if transposed then jV * nVar + iV else iV * nVar + jV))) := by
  refine ⟨rfl, rfl, rfl, ?_⟩
  intro iV jV hi hj
  have hn : 0 < nVar := by omega
  have hlt : iV * nVar + jV < nVar * nVar := by
    calc iV * nVar + jV < iV * nVar + nVar := by omega
    _ = (iV + 1) * nVar := by ring
    _ ≤ nVar * nVar := Nat.mul_le_mul_right nVar (by omega)
  have hmod : (iV * nVar + jV) % nVar = jV := by
    rw [Nat.mul_comm iV nVar, Nat.mul_add_mod, Nat.mod_eq_of_lt hj]
  have hdiv : (iV * nVar + jV) / nVar = iV := by
    rw [Nat.mul_comm, Nat.mul_add_div hn, Nat.div_eq_of_lt hj, Nat.add_zero]
  simp only [copyDiagBlock]
  rw [if_pos hlt, hmod, hdiv]
  cases transposed with
  | false => rfl
  | true => rfl

/-- Witness for C8 with the identity inner solver, `nVar = 2`, value array
`k ↦ k`, at scratch position `(iV, jV) = (1, 0)`. -/
theorem C8_witness :
    (1 : Nat) < 2 ∧ (0 : Nat) < 2 ∧
    ((Gauss_Elimination (fun blk r => (blk, r)) 2 [0]
        ⟨fun k => (k : ℚ), fun _ => 0⟩ 0 (fun _ => 1) true).1.matrix
      = (⟨fun k => (k : ℚ), fun _ => 0⟩ : GEState).matrix) ∧
    (copyDiagBlock 2
        (fun k => (⟨fun k => (k : ℚ), fun _ => 0⟩ : GEState).matrix
          (([0] : List Nat).getD 0 0 * (2 * 2) + k))
        (⟨fun k => (k : ℚ), fun _ => 0⟩ : GEState).block true (1 * 2 + 0)
      = (⟨fun k => (k : ℚ), fun _ => 0⟩ : GEState).matrix
          (([0] : List Nat).getD 0 0 * (2 * 2) +
            (if (true : Bool) then 0 * 2 + 1 else 1 * 2 + 0))) :=
  ⟨by decide, by decide,
   (C8_gauss_elimination_frame (fun blk r => (blk, r)) 2 [0]
      ⟨fun k => (k : ℚ), fun _ => 0⟩ 0 (fun _ => 1) true).1,
   (C8_gauss_elimination_frame (fun blk r => (blk, r)) 2 [0]
      ⟨fun k => (k : ℚ), fun _ => 0⟩ 0 (fun _ => 1) true).2.2.2 1 0
     (by decide) (by decide)⟩

/-- Witness for C9 at `globalCount = 4`, `size = 3`, `index = 5`. -/
theorem C9_witness :
    (0 : Nat) < 3 ∧
    ((sizeOnRank 4 3 0 = 0 ↔ (4 : Nat) = 0) ∧
     cumulativeSizeBeforeRank 4 3 0 = 0 ∧
     ¬ (5 : Nat) < cumulativeSizeBeforeRank 4 3 0 ∧
     walkDown 4 3 5 0 = 0) :=
  ⟨by decide, C9_division_guard 4 3 5 (by decide)⟩

end SU2
